import Mathlib

/-!
Shallow embedding of the godaddy libdns provider (Go) and verification of its
specification claims.  Go strings are modelled as lists of characters
(`GoStr`); a byte-suffix match of one valid UTF-8 string against another
coincides with a character-suffix match, so the character-level model is
faithful for the string operations used by the provider.  Go machine-integer
arithmetic on TTLs is modelled with unbounded `Int`; int64 wraparound (TTLs
beyond roughly 2^63 nanoseconds, i.e. 292 years) is outside the model, far
beyond any DNS TTL.
-/

/-- GoStr models a Go string as its list of characters. -/
abbrev GoStr := List Char

/-- gs converts a Lean string literal to the `GoStr` model. -/
def gs (s : String) : GoStr := s.toList

/-- trimSuffix models Go strings.TrimSuffix: drop one trailing occurrence of
the suffix when present, otherwise return the string unchanged. -/
def trimSuffix (s suffix : GoStr) : GoStr :=
  if suffix.isSuffixOf s then s.take (s.length - suffix.length) else s

/-- toUpperGo models Go strings.ToUpper restricted to ASCII (record types are
ASCII strings; the Unicode case table is not needed for any claim). -/
def toUpperGo (s : GoStr) : GoStr := s.map Char.toUpper

/-- splitOnChar splits a list on every occurrence of a separator character,
like Go strings.Split with a one-character separator. -/
def splitOnChar (sep : Char) : GoStr → List GoStr
  | [] => [[]]
  | c :: rest =>
    if c = sep then [] :: splitOnChar sep rest
    else
      match splitOnChar sep rest with
      | [] => [[c]]
      | t :: ts => (c :: t) :: ts

/-- splitOnceAt finds the first occurrence of a separator character and
returns the parts before and after it, if any. -/
def splitOnceAt (sep : Char) : GoStr → Option (GoStr × GoStr)
  | [] => none
  | c :: rest =>
    if c = sep then some ([], rest)
    else (splitOnceAt sep rest).map (fun p => (c :: p.1, p.2))

/-- goSplitN2 models Go strings.SplitN(s, sep, 2) for a one-character
separator: two parts split at the first occurrence, or the whole string. -/
def goSplitN2 (s : GoStr) (sep : Char) : List GoStr :=
  match splitOnceAt sep s with
  | some p => [p.1, p.2]
  | none => [s]

/-- digitsRevFuel computes the base-b digits of n, least significant first,
with an explicit fuel argument bounding the recursion depth. -/
def digitsRevFuel (b : Nat) : Nat → Nat → List Nat
  | 0, _ => []
  | fuel + 1, n => if n = 0 then [] else n % b :: digitsRevFuel b fuel (n / b)

/-- digitCharOf renders one digit value below 16 as a character, using
lowercase letters for values ten to fifteen. -/
def digitCharOf (d : Nat) : Char :=
  if d < 10 then Char.ofNat (48 + d) else Char.ofNat (87 + d)

/-- printNat renders a natural number in the given base, most significant
digit first, with no leading zeros and rendering zero as "0". -/
def printNat (b n : Nat) : GoStr :=
  if n = 0 then ['0'] else ((digitsRevFuel b n n).reverse).map digitCharOf

/-- hexDigitToNat maps a hexadecimal digit character to its value; other
characters map to zero (callers check digit-hood first). -/
def hexDigitToNat (c : Char) : Nat :=
  if '0' ≤ c ∧ c ≤ '9' then c.toNat - 48
  else if 'a' ≤ c ∧ c ≤ 'f' then c.toNat - 87
  else if 'A' ≤ c ∧ c ≤ 'F' then c.toNat - 55
  else 0

/-- baseVal folds a digit string in the given base into its value, most
significant digit first. -/
def baseVal (b : Nat) (s : GoStr) : Nat :=
  s.foldl (fun a c => a * b + hexDigitToNat c) 0

/-- isHexDigitGo tests for an ASCII hexadecimal digit, upper or lower case. -/
def isHexDigitGo (c : Char) : Bool :=
  c.isDigit || ('a' ≤ c && c ≤ 'f') || ('A' ≤ c && c ≤ 'F')

/-- IPAddr models a parsed IP address as Go net/netip represents it: a
four-octet IPv4 address or an eight-group IPv6 address. -/
inductive IPAddr where
  | v4 (a b c d : Nat)
  | v6 (g0 g1 g2 g3 g4 g5 g6 g7 : Nat)
  deriving DecidableEq, Repr

/-- is4 reports whether the address is a four-octet IPv4 address, modelling
netip.Addr.Is4. -/
def IPAddr.is4 : IPAddr → Bool
  | .v4 _ _ _ _ => true
  | _ => false

/-- wf bounds each IPv4 octet below 256 and each IPv6 group below 65536;
every parser output is well formed in this sense. -/
def IPAddr.wf : IPAddr → Prop
  | .v4 a b c d => a < 256 ∧ b < 256 ∧ c < 256 ∧ d < 256
  | .v6 a b c d e f g h =>
      a < 65536 ∧ b < 65536 ∧ c < 65536 ∧ d < 65536 ∧
      e < 65536 ∧ f < 65536 ∧ g < 65536 ∧ h < 65536

instance (ip : IPAddr) : Decidable ip.wf := by
  cases ip <;> simp only [IPAddr.wf] <;> infer_instance

/-- parseOctet models one dotted-quad field of netip.ParseAddr: one to three
decimal digits, no leading zero, value at most 255. -/
def parseOctet (t : GoStr) : Option Nat :=
  if t ≠ [] ∧ t.length ≤ 3 ∧ t.all Char.isDigit ∧ (t = ['0'] ∨ t.head? ≠ some '0') then
    let v := baseVal 10 t
    if v ≤ 255 then some v else none
  else none

/-- parseV4 models the IPv4 arm of netip.ParseAddr: exactly four
dot-separated octet fields. -/
def parseV4 (s : GoStr) : Option IPAddr :=
  match splitOnChar '.' s with
  | [t1, t2, t3, t4] =>
    match parseOctet t1, parseOctet t2, parseOctet t3, parseOctet t4 with
    | some a, some b, some c, some d => some (.v4 a b c d)
    | _, _, _, _ => none
  | _ => none

/-- hexGroupVal models one 16-bit group of an IPv6 literal: one to four
hexadecimal digits (leading zeros allowed). -/
def hexGroupVal (t : GoStr) : Option Nat :=
  if t ≠ [] ∧ t.length ≤ 4 ∧ t.all isHexDigitGo then some (baseVal 16 t) else none

/-- splitTwoColon finds the first occurrence of two adjacent colons and
returns the parts before and after it, if any. -/
def splitTwoColon : GoStr → Option (GoStr × GoStr)
  | [] => none
  | c :: rest =>
    if c = ':' ∧ rest.head? = some ':' then some ([], rest.tail)
    else (splitTwoColon rest).map (fun p => (c :: p.1, p.2))

/-- groupsToIp packages exactly eight group values into an IPv6 address. -/
def groupsToIp : List Nat → Option IPAddr
  | [a, b, c, d, e, f, g, h] => some (.v6 a b c d e f g h)
  | _ => none

/-- parseV6 models the IPv6 arm of netip.ParseAddr: either eight
colon-separated hexadecimal groups, or a form compressed with a single
double colon standing for at least one zero group.  The embedded
IPv4-in-IPv6 form and zone suffixes are not modelled; no claim depends on
them. -/
def parseV6 (s : GoStr) : Option IPAddr :=
  match splitTwoColon s with
  | some (l, r) =>
    let lt := if l = [] then some [] else (splitOnChar ':' l).mapM hexGroupVal
    let rt := if r = [] then some [] else (splitOnChar ':' r).mapM hexGroupVal
    match lt, rt with
    | some ls, some rs =>
      if ls.length + rs.length ≤ 7 then
        groupsToIp (ls ++ List.replicate (8 - ls.length - rs.length) 0 ++ rs)
      else none
    | _, _ => none
  | none =>
    match (splitOnChar ':' s).mapM hexGroupVal with
    | some gl => groupsToIp gl
    | none => none

/-- parseAddr is modelled from the spec: netip.ParseAddr is external to this
repository; the spec treats it as the external collaborator that parses an
IP address literal.  Strings containing a colon are parsed as IPv6,
strings containing a dot as IPv4, as netip does. -/
def parseAddr (s : GoStr) : Option IPAddr :=
  if (':' ∈ s) then parseV6 s else parseV4 s

/-- ipString is modelled from the spec: netip.Addr.String is external to this
repository.  IPv4 addresses print as the dotted quad; IPv6 addresses print
as eight lowercase hexadecimal groups in full (the canonical double-colon
compression of the external library is not modelled; claims depend only on
the printer and parser agreeing with each other). -/
def ipString : IPAddr → GoStr
  | .v4 a b c d =>
      printNat 10 a ++ '.' :: printNat 10 b ++ '.' :: printNat 10 c ++ '.' :: printNat 10 d
  | .v6 a b c d e f g h =>
      printNat 16 a ++ ':' :: printNat 16 b ++ ':' :: printNat 16 c ++ ':' :: printNat 16 d ++
      ':' :: printNat 16 e ++ ':' :: printNat 16 f ++ ':' :: printNat 16 g ++ ':' :: printNat 16 h

/-!
Record model.  The vendor record is godaddyRecord from the source; the
generic record is the libdns Record interface.  The libdns variant types and
their RR projections live in the external libdns library, so they are
modelled from the spec here.
-/

/-- godaddyRecord embeds the vendor record struct of the source: a flat
shape of type, name, data, and TTL in integer seconds.  Field names follow
the source struct's JSON tags (Go capitalizes them for export). -/
structure godaddyRecord where
  type : GoStr
  name : GoStr
  data : GoStr
  ttl : Int
  deriving DecidableEq, Repr

/-- LibdnsRecord is modelled from the spec: the libdns generic record is
polymorphic over record kind with variants Address, Text, CanonicalName,
MailExchange, NameServer, and the catch-all Raw variant carrying an explicit
type tag and an opaque data string.  The TTL is a duration held in integer
nanoseconds, as Go time.Duration does. -/
inductive LibdnsRecord where
  | address (name : GoStr) (ttl : Int) (ip : IPAddr)
  | txt (name : GoStr) (ttl : Int) (text : GoStr)
  | cname (name : GoStr) (ttl : Int) (target : GoStr)
  | mx (name : GoStr) (ttl : Int) (preference : Nat) (target : GoStr)
  | ns (name : GoStr) (ttl : Int) (target : GoStr)
  | rr (name : GoStr) (ttl : Int) (rtype : GoStr) (rdata : GoStr)
  deriving DecidableEq, Repr

/-- RRview is the common projection of any record variant to name, ttl,
type, and data, used for matching and generic display. -/
structure RRview where
  name : GoStr
  ttl : Int
  rtype : GoStr
  rdata : GoStr
  deriving DecidableEq, Repr

/-- rrOf is modelled from the spec: the RR-view projection of a libdns
record is the single place where variant-specific formatting back into a
flat string happens.  The typed variants project to their canonical
uppercase type strings; an Address projects to type A or AAAA according to
whether the address is a four-octet IPv4 address; a MailExchange
re-serializes its data as the preference in decimal, a space, and the
target; the Raw variant projects to its own fields verbatim, preserving the
original type and data. -/
def rrOf : LibdnsRecord → RRview
  | .address n t ip => ⟨n, t, if ip.is4 then gs "A" else gs "AAAA", ipString ip⟩
  | .txt n t s => ⟨n, t, gs "TXT", s⟩
  | .cname n t tg => ⟨n, t, gs "CNAME", tg⟩
  | .mx n t p tg => ⟨n, t, gs "MX", printNat 10 p ++ ' ' :: tg⟩
  | .ns n t tg => ⟨n, t, gs "NS", tg⟩
  | .rr n t ty d => ⟨n, t, ty, d⟩

/-- getDomain embeds the source function of the same name: strip one
trailing dot from the zone. -/
def getDomain (zone : GoStr) : GoStr := trimSuffix zone (gs ".")

/-- getRecordName embeds the source function of the same name: the apex
marker passes through; otherwise one trailing occurrence of the zone is
stripped, then one trailing dot. -/
def getRecordName (zone name : GoStr) : GoStr :=
  if name = gs "@" then gs "@"
  else trimSuffix (trimSuffix name zone) (gs ".")

/-- parseUint16 models Go strconv.ParseUint(s, 10, 16): decimal digits only,
no sign, not empty, error when the value exceeds the 16-bit range. -/
def parseUint16 (s : GoStr) : Option Nat :=
  if s ≠ [] ∧ s.all Char.isDigit then
    let v := baseVal 10 s
    if v < 65536 then some v else none
  else none

/-- convertToLibdnsRecord embeds the source function of the same name: the
vendor TTL in seconds converts to a duration, the dispatch is on the
uppercased type, and every per-type parse failure and every unmodeled type
falls back to the Raw variant preserving the original type and data. -/
def convertToLibdnsRecord (gr : godaddyRecord) : LibdnsRecord :=
  let ttl : Int := gr.ttl * 1000000000
  let u := toUpperGo gr.type
  if u = gs "A" ∨ u = gs "AAAA" then
    match parseAddr gr.data with
    | none => .rr gr.name ttl gr.type gr.data
    | some ip => .address gr.name ttl ip
  else if u = gs "TXT" then .txt gr.name ttl gr.data
  else if u = gs "CNAME" then .cname gr.name ttl gr.data
  else if u = gs "MX" then
    match goSplitN2 gr.data ' ' with
    | [p1, p2] =>
      match parseUint16 p1 with
      | some pref => .mx gr.name ttl pref p2
      | none => .rr gr.name ttl gr.type gr.data
    | _ => .rr gr.name ttl gr.type gr.data
  else if u = gs "NS" then .ns gr.name ttl gr.data
  else .rr gr.name ttl gr.type gr.data

/-- convertFromLibdnsRecord embeds the source function of the same name:
project to the RR view, make the name zone-relative, truncate the TTL to
whole seconds and clamp it up to the vendor minimum of 600.  The Go
function also returns an error value that is nil on every path, so the
model returns the record directly. -/
def convertFromLibdnsRecord (record : LibdnsRecord) (zone : GoStr) : godaddyRecord :=
  let v := rrOf record
  let ttlSeconds := Int.tdiv v.ttl 1000000000
  let ttlSeconds := if ttlSeconds < 600 then 600 else ttlSeconds
  ⟨v.rtype, getRecordName zone v.name, v.rdata, ttlSeconds⟩

/-!
Remote interaction model.  The HTTP transport is an external collaborator;
the spec specifies it at the interface boundary: one read call returning all
vendor records of the zone, one create-or-replace write per record addressed
by type and name, one delete per record addressed by type and name.  The
remote zone is modelled as a list of vendor records, and success or failure
of the i-th outbound call of an operation is decided by an environment
function from call index to Bool (false models a network error or a
non-success status; a failed call leaves the store unchanged).
-/

/-- RemoteCall records one outbound HTTP call: the read of all records of a
domain, a create-or-replace write addressed by type and name with a vendor
record body, or a delete addressed by type and name. -/
inductive RemoteCall where
  | get (domain : GoStr)
  | put (domain rtype rname : GoStr) (body : godaddyRecord)
  | del (domain rtype rname : GoStr)
  deriving DecidableEq, Repr

/-- isPut tests for the create-or-replace write call. -/
def RemoteCall.isPut : RemoteCall → Bool
  | .put _ _ _ _ => true
  | _ => false

/-- applyPut is modelled from the spec: the vendor write is
create-or-replace addressed by type and name, so it removes the records
sharing the written record's type and name and appends the written one. -/
def applyPut (store : List godaddyRecord) (w : godaddyRecord) : List godaddyRecord :=
  store.filter (fun r => !(r.type == w.type && r.name == w.name)) ++ [w]

/-- applyDel is modelled from the spec: the vendor delete removes the
records addressed by the given type and name. -/
def applyDel (store : List godaddyRecord) (ty nm : GoStr) : List godaddyRecord :=
  store.filter (fun r => !(r.type == ty && r.name == nm))

/-- BatchResult collects what one batch operation did: the outbound calls in
order, the final remote store, the returned record list, and whether an
error was returned (the Go functions return a nil record list exactly when
they return an error). -/
structure BatchResult where
  trace : List RemoteCall
  store : List godaddyRecord
  records : List LibdnsRecord
  err : Bool
  deriving DecidableEq, Repr

/-- appendLoop embeds the per-record loop of the source AppendRecords: one
write call per record in caller order, stopping at the first failed call
and returning nil records with the error. -/
def appendLoop (ok : Nat → Bool) (zone : GoStr) :
    Nat → List godaddyRecord → List LibdnsRecord → List RemoteCall →
    List LibdnsRecord → BatchResult
  | _, store, acc, trace, [] => ⟨trace, store, acc, false⟩
  | idx, store, acc, trace, r :: rest =>
    let w := convertFromLibdnsRecord r zone
    let c := RemoteCall.put (getDomain zone) w.type w.name w
    if ok idx then
      appendLoop ok zone (idx + 1) (applyPut store w) (acc ++ [r]) (trace ++ [c]) rest
    else ⟨trace ++ [c], store, [], true⟩

/-- appendRecordsModel embeds the source AppendRecords over the remote
interaction model. -/
def appendRecordsModel (ok : Nat → Bool) (zone : GoStr) (records : List LibdnsRecord)
    (store : List godaddyRecord) : BatchResult :=
  appendLoop ok zone 0 store [] [] records

/-- setRecordsModel embeds the source SetRecords, which delegates to
AppendRecords on the same arguments. -/
def setRecordsModel (ok : Nat → Bool) (zone : GoStr) (records : List LibdnsRecord)
    (store : List godaddyRecord) : BatchResult :=
  appendRecordsModel ok zone records store

/-- findMatch embeds the inner loop of the source DeleteRecords: scan the
current records for the first one whose RR-view type equals the target type
and whose zone-relative name equals the target relative name, stopping at
the first match. -/
def findMatch (zone ty nm : GoStr) : List LibdnsRecord → Option LibdnsRecord
  | [] => none
  | c :: rest =>
    let cv := rrOf c
    if cv.rtype == ty && getRecordName zone cv.name == nm then some c
    else findMatch zone ty nm rest

/-- deleteMatches embeds the matching phase of the source DeleteRecords: for
each requested record in caller order, collect the first current record
matching its type and relative name, skipping requests with no match. -/
def deleteMatches (zone : GoStr) (current : List LibdnsRecord) :
    List LibdnsRecord → List LibdnsRecord
  | [] => []
  | r :: rest =>
    let v := rrOf r
    match findMatch zone v.rtype (getRecordName zone v.name) current with
    | some c => c :: deleteMatches zone current rest
    | none => deleteMatches zone current rest

/-- deleteLoop embeds the delete phase of the source DeleteRecords: one
delete call per matched record, stopping at the first failed call and
returning nil records with the error; on success the full matched list is
returned. -/
def deleteLoop (ok : Nat → Bool) (zone : GoStr) (deletedAll : List LibdnsRecord) :
    Nat → List godaddyRecord → List RemoteCall → List LibdnsRecord → BatchResult
  | _, store, trace, [] => ⟨trace, store, deletedAll, false⟩
  | idx, store, trace, r :: rest =>
    let v := rrOf r
    let nm := getRecordName zone v.name
    let c := RemoteCall.del (getDomain zone) v.rtype nm
    if ok idx then
      deleteLoop ok zone deletedAll (idx + 1) (applyDel store v.rtype nm) (trace ++ [c]) rest
    else ⟨trace ++ [c], store, [], true⟩

/-- deleteRecordsModel embeds the source DeleteRecords over the remote
interaction model: one read of the full remote set (call index zero), the
pure matching phase, then one delete call per matched record. -/
def deleteRecordsModel (ok : Nat → Bool) (zone : GoStr) (records : List LibdnsRecord)
    (store : List godaddyRecord) : BatchResult :=
  let trace0 := [RemoteCall.get (getDomain zone)]
  if ok 0 then
    let current := store.map convertToLibdnsRecord
    let deleted := deleteMatches zone current records
    deleteLoop ok zone deleted 1 store trace0 deleted
  else ⟨trace0, store, [], true⟩

/-- putCallOf is the write call that AppendRecords issues for one record. -/
def putCallOf (zone : GoStr) (r : LibdnsRecord) : RemoteCall :=
  let w := convertFromLibdnsRecord r zone
  RemoteCall.put (getDomain zone) w.type w.name w

/-- delCallOf is the delete call that DeleteRecords issues for one matched
record. -/
def delCallOf (zone : GoStr) (r : LibdnsRecord) : RemoteCall :=
  let v := rrOf r
  RemoteCall.del (getDomain zone) v.rtype (getRecordName zone v.name)

/-- isTypedVariant distinguishes the typed libdns variants from the Raw
catch-all. -/
def isTypedVariant : LibdnsRecord → Bool
  | .rr _ _ _ _ => false
  | _ => true

/-- rawRetype replaces the preserved type tag of a Raw record and leaves
every typed variant unchanged; it expresses how the decode result depends
on the case of the incoming type string. -/
def rawRetype (ty : GoStr) : LibdnsRecord → LibdnsRecord
  | .rr n t _ d => .rr n t ty d
  | x => x

/-!
String lemmas: Go TrimSuffix and the split helpers.
-/

theorem trimSuffix_append (pre suf : GoStr) : trimSuffix (pre ++ suf) suf = pre := by
  unfold trimSuffix
  rw [if_pos]
  · rw [List.length_append, Nat.add_sub_cancel, List.take_left]
  · exact List.isSuffixOf_iff_suffix.mpr (List.suffix_append pre suf)

theorem trimSuffix_of_not_suffix {s suf : GoStr} (h : ¬ suf <:+ s) : trimSuffix s suf = s := by
  unfold trimSuffix
  rw [if_neg]
  simpa [List.isSuffixOf_iff_suffix] using h

theorem getRecordName_unchanged {zone name : GoStr} (h1 : ¬ zone <:+ name)
    (h2 : ¬ (gs ".") <:+ name) : getRecordName zone name = name := by
  unfold getRecordName
  by_cases hA : name = gs "@"
  · rw [if_pos hA, hA]
  · rw [if_neg hA, trimSuffix_of_not_suffix h1, trimSuffix_of_not_suffix h2]

theorem splitOnceAt_of_not_mem {sep : Char} : ∀ {t : GoStr}, sep ∉ t →
    splitOnceAt sep t = none := by
  intro t
  induction t with
  | nil => intro _; rfl
  | cons c rest ih =>
    intro h
    rw [List.mem_cons, not_or] at h
    unfold splitOnceAt
    rw [if_neg (fun hc => h.1 hc.symm), ih h.2]
    rfl

theorem splitOnceAt_append {sep : Char} : ∀ {t1 : GoStr} (t2 : GoStr), sep ∉ t1 →
    splitOnceAt sep (t1 ++ sep :: t2) = some (t1, t2) := by
  intro t1
  induction t1 with
  | nil => intro t2 _; simp [splitOnceAt]
  | cons c rest ih =>
    intro t2 h
    rw [List.mem_cons, not_or] at h
    have hc : ¬ c = sep := fun hc => h.1 hc.symm
    simp [splitOnceAt, hc, ih t2 h.2]

theorem splitOnChar_of_not_mem {sep : Char} : ∀ {t : GoStr}, sep ∉ t →
    splitOnChar sep t = [t] := by
  intro t
  induction t with
  | nil => intro _; rfl
  | cons c rest ih =>
    intro h
    rw [List.mem_cons, not_or] at h
    unfold splitOnChar
    rw [if_neg (fun hc => h.1 hc.symm), ih h.2]

theorem splitOnChar_append {sep : Char} : ∀ {t : GoStr} (r : GoStr), sep ∉ t →
    splitOnChar sep (t ++ sep :: r) = t :: splitOnChar sep r := by
  intro t
  induction t with
  | nil =>
    intro r _
    rw [List.nil_append]
    conv_lhs => unfold splitOnChar
    rw [if_pos rfl]
  | cons c rest ih =>
    intro r h
    rw [List.mem_cons, not_or] at h
    have hc : ¬ c = sep := fun hc => h.1 hc.symm
    rw [List.cons_append]
    conv_lhs => unfold splitOnChar
    rw [if_neg hc, ih r h.2]

theorem splitTwoColon_of_not_mem : ∀ {t : GoStr}, ':' ∉ t → splitTwoColon t = none := by
  intro t
  induction t with
  | nil => intro _; rfl
  | cons c rest ih =>
    intro h
    rw [List.mem_cons, not_or] at h
    unfold splitTwoColon
    rw [if_neg (fun hc => h.1 hc.1.symm), ih h.2]
    rfl

theorem splitTwoColon_cons {c : Char} {r : GoStr} (hc : c ≠ ':' ∨ r.head? ≠ some ':')
    (h : splitTwoColon r = none) : splitTwoColon (c :: r) = none := by
  have hp : ¬ (c = ':' ∧ r.head? = some ':') := by
    rcases hc with hc | hc
    · exact fun hp => hc hp.1
    · exact fun hp => hc hp.2
  unfold splitTwoColon
  rw [if_neg hp, h]
  rfl

theorem splitTwoColon_append : ∀ {t : GoStr} {r : GoStr}, ':' ∉ t →
    splitTwoColon r = none → splitTwoColon (t ++ r) = none := by
  intro t
  induction t with
  | nil => intro r _ h; exact h
  | cons c rest ih =>
    intro r h hr
    rw [List.mem_cons, not_or] at h
    exact splitTwoColon_cons (Or.inl (fun hc => h.1 hc.symm)) (ih h.2 hr)

/-!
Digit printing and parsing lemmas, used to show the modelled IP printer and
parser agree.
-/

theorem hexDigitToNat_digitCharOf : ∀ d, d < 16 → hexDigitToNat (digitCharOf d) = d := by
  decide

theorem digitCharOf_isDigit : ∀ d, d < 10 → (digitCharOf d).isDigit = true := by
  decide

theorem digitCharOf_isHex : ∀ d, d < 16 → isHexDigitGo (digitCharOf d) = true := by
  decide

theorem digitCharOf_ne_dot : ∀ d, d < 16 → digitCharOf d ≠ '.' := by
  decide

theorem digitCharOf_ne_colon : ∀ d, d < 16 → digitCharOf d ≠ ':' := by
  decide

theorem digitCharOf_eq_zero_iff : ∀ d, d < 16 → (digitCharOf d = '0' ↔ d = 0) := by
  decide

theorem hexDigitToNat_lt_16 (c : Char) : hexDigitToNat c < 16 := by
  unfold hexDigitToNat
  split
  · next h =>
    have h9 : c.toNat ≤ 57 := by
      have := h.2
      rw [Char.le_def, UInt32.le_def, BitVec.le_def] at this
      exact this
    omega
  · split
    · next h =>
      have hf : c.toNat ≤ 102 := by
        have := h.2
        rw [Char.le_def, UInt32.le_def, BitVec.le_def] at this
        exact this
      omega
    · split
      · next h =>
        have hF : c.toNat ≤ 70 := by
          have := h.2
          rw [Char.le_def, UInt32.le_def, BitVec.le_def] at this
          exact this
        omega
      · omega

theorem digitsRevFuel_zero (b : Nat) : ∀ fuel, digitsRevFuel b fuel 0 = [] := by
  intro fuel
  cases fuel with
  | zero => rfl
  | succ f => unfold digitsRevFuel; rw [if_pos rfl]

theorem digitsRevFuel_mem_lt {b : Nat} (hb : 0 < b) :
    ∀ fuel n d, d ∈ digitsRevFuel b fuel n → d < b := by
  intro fuel
  induction fuel with
  | zero => intro n d h; simp [digitsRevFuel] at h
  | succ f ih =>
    intro n d h
    unfold digitsRevFuel at h
    by_cases hn : n = 0
    · rw [if_pos hn] at h; simp at h
    · rw [if_neg hn] at h
      rcases List.mem_cons.mp h with h | h
      · rw [h]; exact Nat.mod_lt n hb
      · exact ih (n / b) d h

theorem digitsRevFuel_ne_nil {b : Nat} : ∀ {fuel n : Nat}, n ≠ 0 → n ≤ fuel →
    digitsRevFuel b fuel n ≠ [] := by
  intro fuel n hn hf
  cases fuel with
  | zero => omega
  | succ f =>
    unfold digitsRevFuel
    rw [if_neg hn]
    exact List.cons_ne_nil _ _

theorem digitsRevFuel_val {b : Nat} (hb : 2 ≤ b) :
    ∀ fuel n, n ≤ fuel →
      List.foldl (fun a d => a * b + d) 0 ((digitsRevFuel b fuel n).reverse) = n := by
  intro fuel
  induction fuel with
  | zero => intro n h; interval_cases n; simp [digitsRevFuel]
  | succ f ih =>
    intro n h
    by_cases hn : n = 0
    · rw [hn, digitsRevFuel_zero]; rfl
    · unfold digitsRevFuel
      rw [if_neg hn, List.reverse_cons, List.foldl_append]
      have hdiv : n / b ≤ f := by
        have h1 : n / b < n := Nat.div_lt_self (Nat.pos_of_ne_zero hn) hb
        omega
      rw [ih (n / b) hdiv]
      show n / b * b + n % b = n
      rw [Nat.mul_comm]
      exact Nat.div_add_mod n b

theorem digitsRevFuel_length_le {b : Nat} (hb : 2 ≤ b) :
    ∀ fuel n k, n ≤ fuel → n < b ^ k → (digitsRevFuel b fuel n).length ≤ k := by
  intro fuel
  induction fuel with
  | zero => intro n k h _; interval_cases n; simp [digitsRevFuel]
  | succ f ih =>
    intro n k h hk
    by_cases hn : n = 0
    · rw [hn, digitsRevFuel_zero]; exact Nat.zero_le k
    · unfold digitsRevFuel
      rw [if_neg hn]
      cases k with
      | zero => simp at hk; omega
      | succ k' =>
        rw [List.length_cons]
        have hdiv : n / b ≤ f := by
          have h1 : n / b < n := Nat.div_lt_self (Nat.pos_of_ne_zero hn) hb
          omega
        have hk' : n / b < b ^ k' := by
          rw [Nat.div_lt_iff_lt_mul (by omega)]
          calc n < b ^ (k' + 1) := hk
          _ = b ^ k' * b := by rw [Nat.pow_succ]
        exact Nat.succ_le_succ (ih (n / b) k' hdiv hk')

theorem digitsRevFuel_getLast_ne_zero {b : Nat} (hb : 2 ≤ b) :
    ∀ fuel n d, n ≠ 0 → n ≤ fuel →
      (digitsRevFuel b fuel n).getLast? = some d → d ≠ 0 := by
  intro fuel
  induction fuel with
  | zero => intro n d hn hf; omega
  | succ f ih =>
    intro n d hn hf hl
    unfold digitsRevFuel at hl
    rw [if_neg hn] at hl
    by_cases hq : n / b = 0
    · rw [hq, digitsRevFuel_zero] at hl
      simp at hl
      have hnb : n < b := (Nat.div_eq_zero_iff (by omega)).mp hq
      rw [Nat.mod_eq_of_lt hnb] at hl
      omega
    · have hdiv : n / b ≤ f := by
        have h1 : n / b < n := Nat.div_lt_self (Nat.pos_of_ne_zero hn) hb
        omega
      have hne := digitsRevFuel_ne_nil (b := b) hq hdiv
      cases hrec : digitsRevFuel b f (n / b) with
      | nil => exact absurd hrec hne
      | cons x xs =>
        rw [hrec, List.getLast?_cons_cons] at hl
        exact ih (n / b) d hq hdiv (by rw [hrec]; exact hl)

theorem printNat_ne_nil (b n : Nat) : printNat b n ≠ [] := by
  unfold printNat
  by_cases hn : n = 0
  · rw [if_pos hn]; exact List.cons_ne_nil _ _
  · rw [if_neg hn]
    intro h
    rw [List.map_eq_nil_iff, List.reverse_eq_nil_iff] at h
    exact digitsRevFuel_ne_nil hn (Nat.le_refl n) h

theorem printNat_mem {b n : Nat} (hb : 2 ≤ b) {c : Char} (hc : c ∈ printNat b n) :
    ∃ d, d < b ∧ c = digitCharOf d := by
  unfold printNat at hc
  by_cases hn : n = 0
  · rw [if_pos hn] at hc
    rcases List.mem_singleton.mp hc with rfl
    exact ⟨0, by omega, by decide⟩
  · rw [if_neg hn] at hc
    rcases List.mem_map.mp hc with ⟨d, hd, rfl⟩
    rw [List.mem_reverse] at hd
    exact ⟨d, digitsRevFuel_mem_lt (by omega) n n d hd, rfl⟩

theorem baseVal_printNat {b : Nat} (hb : 2 ≤ b) (hb16 : b ≤ 16) (n : Nat) :
    baseVal b (printNat b n) = n := by
  unfold printNat
  by_cases hn : n = 0
  · rw [if_pos hn, hn]
    show 0 * b + hexDigitToNat '0' = 0
    have h0 : hexDigitToNat '0' = 0 := by decide
    rw [h0]
    omega
  · rw [if_neg hn]
    unfold baseVal
    rw [List.foldl_map]
    rw [List.foldl_ext (fun a d => a * b + hexDigitToNat (digitCharOf d)) (fun a d => a * b + d) 0]
    · exact digitsRevFuel_val hb n n (Nat.le_refl n)
    · intro a d hd
      rw [List.mem_reverse] at hd
      have hdb : d < b := digitsRevFuel_mem_lt (by omega) n n d hd
      rw [hexDigitToNat_digitCharOf d (by omega)]

theorem printNat_length_le {b n k : Nat} (hb : 2 ≤ b) (h : n < b ^ k) (hk : 0 < k) :
    (printNat b n).length ≤ k := by
  unfold printNat
  by_cases hn : n = 0
  · rw [if_pos hn]; simpa using hk
  · rw [if_neg hn, List.length_map, List.length_reverse]
    exact digitsRevFuel_length_le hb n n k (Nat.le_refl n) h

theorem printNat_no_leading_zero {b n : Nat} (hb : 2 ≤ b) (hb16 : b ≤ 16) :
    printNat b n = ['0'] ∨ (printNat b n).head? ≠ some '0' := by
  unfold printNat
  by_cases hn : n = 0
  · rw [if_pos hn]; exact Or.inl rfl
  · rw [if_neg hn]
    right
    rw [List.head?_map, List.head?_reverse]
    cases hl : (digitsRevFuel b n n).getLast? with
    | none =>
      rw [List.getLast?_eq_none_iff] at hl
      exact absurd hl (digitsRevFuel_ne_nil hn (Nat.le_refl n))
    | some d =>
      have hd0 : d ≠ 0 := digitsRevFuel_getLast_ne_zero hb n n d hn (Nat.le_refl n) hl
      have hdb : d < b := digitsRevFuel_mem_lt (by omega) n n d (List.mem_of_getLast?_eq_some hl)
      intro h
      have hzero : digitCharOf d = '0' := by simpa using h
      exact hd0 ((digitCharOf_eq_zero_iff d (by omega)).mp hzero)

theorem printNat_not_mem {b n : Nat} {c : Char} (hb : 2 ≤ b) (hb16 : b ≤ 16)
    (hc : ∀ d, d < b → digitCharOf d ≠ c) : c ∉ printNat b n := by
  intro h
  rcases printNat_mem hb h with ⟨d, hdb, rfl⟩
  exact hc d hdb rfl

theorem parseOctet_printNat {n : Nat} (h : n ≤ 255) : parseOctet (printNat 10 n) = some n := by
  unfold parseOctet
  rw [if_pos, baseVal_printNat (by omega) (by omega), if_pos h]
  refine ⟨printNat_ne_nil 10 n, ?_, ?_, ?_⟩
  · exact printNat_length_le (by omega) (by omega : n < 10 ^ 3) (by omega)
  · rw [List.all_eq_true]
    intro c hc
    rcases printNat_mem (by omega) hc with ⟨d, hdb, rfl⟩
    exact digitCharOf_isDigit d hdb
  · exact printNat_no_leading_zero (by omega) (by omega)

theorem hexGroupVal_printNat {n : Nat} (h : n < 65536) :
    hexGroupVal (printNat 16 n) = some n := by
  unfold hexGroupVal
  rw [if_pos, baseVal_printNat (by omega) (by omega)]
  refine ⟨printNat_ne_nil 16 n, ?_, ?_⟩
  · exact printNat_length_le (by omega) (by omega : n < 16 ^ 4) (by omega)
  · rw [List.all_eq_true]
    intro c hc
    rcases printNat_mem (by omega) hc with ⟨d, hdb, rfl⟩
    exact digitCharOf_isHex d hdb

/-!
Round trip of the modelled IP parser and printer, and well-formedness of
every parser output.
-/

theorem foldl_digit_lt {b : Nat} (hb : 0 < b) :
    ∀ (t : GoStr) (acc : Nat), (∀ c ∈ t, hexDigitToNat c < b) →
      List.foldl (fun a c => a * b + hexDigitToNat c) acc t < (acc + 1) * b ^ t.length := by
  intro t
  induction t with
  | nil => intro acc _; simpa using Nat.lt_succ_self acc
  | cons c t' ih =>
    intro acc hall
    have hc : hexDigitToNat c < b := hall c (List.mem_cons_self c t')
    have hrec := ih (acc * b + hexDigitToNat c) (fun x hx => hall x (List.mem_cons_of_mem c hx))
    calc List.foldl (fun a c => a * b + hexDigitToNat c) (acc * b + hexDigitToNat c) t'
        < (acc * b + hexDigitToNat c + 1) * b ^ t'.length := hrec
      _ ≤ ((acc + 1) * b) * b ^ t'.length := by
          have : acc * b + hexDigitToNat c + 1 ≤ (acc + 1) * b := by nlinarith
          exact Nat.mul_le_mul_right _ this
      _ = (acc + 1) * b ^ (c :: t').length := by
          rw [List.length_cons, Nat.pow_succ]
          ring

theorem hexGroupVal_lt {t : GoStr} {v : Nat} (h : hexGroupVal t = some v) : v < 65536 := by
  unfold hexGroupVal at h
  by_cases hcond : t ≠ [] ∧ t.length ≤ 4 ∧ t.all isHexDigitGo
  · rw [if_pos hcond] at h
    rw [Option.some_inj] at h
    subst h
    have hlt : baseVal 16 t < 16 ^ t.length := by
      have := foldl_digit_lt (b := 16) (by omega) t 0 (fun c _ => hexDigitToNat_lt_16 c)
      simpa [baseVal] using this
    calc baseVal 16 t < 16 ^ t.length := hlt
      _ ≤ 16 ^ 4 := Nat.pow_le_pow_right (by omega) hcond.2.1
      _ = 65536 := by norm_num
  · rw [if_neg hcond] at h
    exact absurd h (by simp)

theorem parseOctet_lt {t : GoStr} {v : Nat} (h : parseOctet t = some v) : v < 256 := by
  unfold parseOctet at h
  by_cases hcond : t ≠ [] ∧ t.length ≤ 3 ∧ t.all Char.isDigit ∧ (t = ['0'] ∨ t.head? ≠ some '0')
  · rw [if_pos hcond] at h
    by_cases hv : baseVal 10 t ≤ 255
    · simp only [hv, if_pos] at h
      rw [Option.some_inj] at h
      omega
    · simp only [if_neg hv] at h
      exact absurd h (by simp)
  · rw [if_neg hcond] at h
    exact absurd h (by simp)

theorem parseV4_wf {s : GoStr} {ip : IPAddr} (h : parseV4 s = some ip) : ip.wf := by
  unfold parseV4 at h
  split at h
  · next t1 t2 t3 t4 _ =>
    split at h
    · next a b c d h1 h2 h3 h4 =>
      rw [Option.some_inj] at h
      subst h
      exact ⟨parseOctet_lt h1, parseOctet_lt h2, parseOctet_lt h3, parseOctet_lt h4⟩
    · exact absurd h (by simp)
  · exact absurd h (by simp)

theorem mapM_hexGroupVal_bound :
    ∀ (l : List GoStr) (res : List Nat), l.mapM hexGroupVal = some res →
      ∀ v ∈ res, v < 65536 := by
  intro l
  induction l with
  | nil =>
    intro res h v hv
    simp only [List.mapM_nil] at h
    rw [show (pure [] : Option (List Nat)) = some [] from rfl, Option.some_inj] at h
    subst h
    simp at hv
  | cons t l' ih =>
    intro res h v hv
    rw [List.mapM_cons] at h
    cases hx : hexGroupVal t with
    | none => rw [hx] at h; simp at h
    | some x =>
      rw [hx] at h
      cases hxs : l'.mapM hexGroupVal with
      | none => rw [hxs] at h; simp at h
      | some xs =>
        rw [hxs] at h
        have hres : res = x :: xs := by
          have := h.symm
          simpa using this
        subst hres
        rcases List.mem_cons.mp hv with rfl | hv'
        · exact hexGroupVal_lt hx
        · exact ih xs hxs v hv'

theorem groupsToIp_wf {gl : List Nat} {ip : IPAddr} (hall : ∀ g ∈ gl, g < 65536)
    (h : groupsToIp gl = some ip) : ip.wf := by
  unfold groupsToIp at h
  split at h
  · next a b c d e f g hh =>
    rw [Option.some_inj] at h
    subst h
    refine ⟨?_, ?_, ?_, ?_, ?_, ?_, ?_, ?_⟩ <;> apply hall <;> simp
  · exact absurd h (by simp)

theorem sideGroups_bound {l : GoStr} {ls : List Nat}
    (h : (if l = [] then some [] else (splitOnChar ':' l).mapM hexGroupVal) = some ls) :
    ∀ v ∈ ls, v < 65536 := by
  by_cases hl : l = []
  · rw [if_pos hl, Option.some_inj] at h
    subst h
    intro v hv
    simp at hv
  · rw [if_neg hl] at h
    exact mapM_hexGroupVal_bound _ _ h

theorem parseV6_wf {s : GoStr} {ip : IPAddr} (h : parseV6 s = some ip) : ip.wf := by
  unfold parseV6 at h
  cases hstc : splitTwoColon s with
  | some p =>
    obtain ⟨l, r⟩ := p
    rw [hstc] at h
    simp only at h
    cases hlt : (if l = [] then some [] else (splitOnChar ':' l).mapM hexGroupVal) with
    | none => rw [hlt] at h; simp at h
    | some ls =>
      cases hrt : (if r = [] then some [] else (splitOnChar ':' r).mapM hexGroupVal) with
      | none => rw [hlt, hrt] at h; simp at h
      | some rs =>
        rw [hlt, hrt] at h
        simp only at h
        by_cases hlen : ls.length + rs.length ≤ 7
        · rw [if_pos hlen] at h
          refine groupsToIp_wf ?_ h
          intro g hg
          rcases List.mem_append.mp hg with hg1 | hg2
          · rcases List.mem_append.mp hg1 with hg3 | hg4
            · exact sideGroups_bound hlt g hg3
            · rw [List.eq_of_mem_replicate hg4]
              omega
          · exact sideGroups_bound hrt g hg2
        · rw [if_neg hlen] at h
          exact absurd h (by simp)
  | none =>
    rw [hstc] at h
    simp only at h
    cases hgl : (splitOnChar ':' s).mapM hexGroupVal with
    | none => rw [hgl] at h; simp at h
    | some gl =>
      rw [hgl] at h
      exact groupsToIp_wf (mapM_hexGroupVal_bound _ _ hgl) h

theorem parseAddr_wf {s : GoStr} {ip : IPAddr} (h : parseAddr s = some ip) : ip.wf := by
  unfold parseAddr at h
  by_cases hc : ':' ∈ s
  · rw [if_pos hc] at h; exact parseV6_wf h
  · rw [if_neg hc] at h; exact parseV4_wf h

theorem colon_not_mem_printNat {b n : Nat} (hb : 2 ≤ b) (hb16 : b ≤ 16) :
    ':' ∉ printNat b n := by
  refine printNat_not_mem hb hb16 ?_
  intro d hd
  exact digitCharOf_ne_colon d (by omega)

theorem dot_not_mem_printNat {b n : Nat} (hb : 2 ≤ b) (hb16 : b ≤ 16) :
    '.' ∉ printNat b n := by
  refine printNat_not_mem hb hb16 ?_
  intro d hd
  exact digitCharOf_ne_dot d (by omega)

theorem parseAddr_ipString_v4 {a b c d : Nat} (h : (IPAddr.v4 a b c d).wf) :
    parseAddr (ipString (.v4 a b c d)) = some (.v4 a b c d) := by
  obtain ⟨ha, hb, hc, hd⟩ := h
  have hdotP : ∀ n : Nat, '.' ∉ printNat 10 n := fun n => dot_not_mem_printNat (by omega) (by omega)
  have hcolP : ∀ n : Nat, ':' ∉ printNat 10 n := fun n => colon_not_mem_printNat (by omega) (by omega)
  have hexp : ipString (IPAddr.v4 a b c d) =
      printNat 10 a ++ '.' :: (printNat 10 b ++ '.' :: (printNat 10 c ++ '.' :: printNat 10 d)) := by
    simp [ipString, List.append_assoc]
  have hnc : ':' ∉ ipString (IPAddr.v4 a b c d) := by
    rw [hexp]
    intro hmem
    rcases List.mem_append.mp hmem with h1 | h1
    · exact hcolP a h1
    rcases List.mem_cons.mp h1 with h1 | h1
    · exact absurd h1 (by decide)
    rcases List.mem_append.mp h1 with h1 | h1
    · exact hcolP b h1
    rcases List.mem_cons.mp h1 with h1 | h1
    · exact absurd h1 (by decide)
    rcases List.mem_append.mp h1 with h1 | h1
    · exact hcolP c h1
    rcases List.mem_cons.mp h1 with h1 | h1
    · exact absurd h1 (by decide)
    exact hcolP d h1
  unfold parseAddr
  rw [if_neg hnc]
  unfold parseV4
  rw [hexp, splitOnChar_append _ (hdotP a), splitOnChar_append _ (hdotP b),
      splitOnChar_append _ (hdotP c), splitOnChar_of_not_mem (hdotP d)]
  simp only [parseOctet_printNat (show a ≤ 255 by omega), parseOctet_printNat (show b ≤ 255 by omega),
      parseOctet_printNat (show c ≤ 255 by omega), parseOctet_printNat (show d ≤ 255 by omega)]

theorem printNat16_head_ne_colon {n : Nat} {x : Char} (h : (printNat 16 n).head? = some x) :
    x ≠ ':' := by
  have hx : x ∈ printNat 16 n := by
    rcases List.head?_eq_some_iff.mp h with ⟨ys, hys⟩
    rw [hys]
    exact List.mem_cons_self x ys
  rcases printNat_mem (by omega) hx with ⟨d, hd, rfl⟩
  exact digitCharOf_ne_colon d (by omega)

theorem head_append_printNat16_ne_colon (n : Nat) (S : GoStr) :
    (printNat 16 n ++ S).head? ≠ some ':' := by
  rw [List.head?_append]
  cases hp : (printNat 16 n).head? with
  | none =>
    rw [List.head?_eq_none_iff] at hp
    exact absurd hp (printNat_ne_nil 16 n)
  | some x =>
    intro hcontra
    have hx : x = ':' := by simpa using hcontra
    exact printNat16_head_ne_colon hp hx

theorem parseAddr_ipString_v6 {g0 g1 g2 g3 g4 g5 g6 g7 : Nat}
    (h : (IPAddr.v6 g0 g1 g2 g3 g4 g5 g6 g7).wf) :
    parseAddr (ipString (.v6 g0 g1 g2 g3 g4 g5 g6 g7)) = some (.v6 g0 g1 g2 g3 g4 g5 g6 g7) := by
  obtain ⟨h0, h1, h2, h3, h4, h5, h6, h7⟩ := h
  have hcolP : ∀ n : Nat, ':' ∉ printNat 16 n := fun n => colon_not_mem_printNat (by omega) (by omega)
  have hexp : ipString (IPAddr.v6 g0 g1 g2 g3 g4 g5 g6 g7) =
      printNat 16 g0 ++ ':' :: (printNat 16 g1 ++ ':' :: (printNat 16 g2 ++ ':' ::
      (printNat 16 g3 ++ ':' :: (printNat 16 g4 ++ ':' :: (printNat 16 g5 ++ ':' ::
      (printNat 16 g6 ++ ':' :: printNat 16 g7)))))) := by
    simp [ipString, List.append_assoc]
  have hmem : ':' ∈ ipString (IPAddr.v6 g0 g1 g2 g3 g4 g5 g6 g7) := by
    rw [hexp]
    exact List.mem_append_right _ (List.mem_cons_self _ _)
  have hstep : ∀ (n : Nat) (S : GoStr), splitTwoColon S = none →
      S.head? ≠ some ':' → splitTwoColon (printNat 16 n ++ ':' :: S) = none := by
    intro n S hS hh
    exact splitTwoColon_append (hcolP n) (splitTwoColon_cons (Or.inr hh) hS)
  have hh7 : (printNat 16 g7).head? ≠ some ':' := fun hch => printNat16_head_ne_colon hch rfl
  have s7 : splitTwoColon (printNat 16 g7) = none := splitTwoColon_of_not_mem (hcolP g7)
  have s6 := hstep g6 _ s7 hh7
  have s5 := hstep g5 _ s6 (head_append_printNat16_ne_colon g6 _)
  have s4 := hstep g4 _ s5 (head_append_printNat16_ne_colon g5 _)
  have s3 := hstep g3 _ s4 (head_append_printNat16_ne_colon g4 _)
  have s2 := hstep g2 _ s3 (head_append_printNat16_ne_colon g3 _)
  have s1 := hstep g1 _ s2 (head_append_printNat16_ne_colon g2 _)
  have s0 := hstep g0 _ s1 (head_append_printNat16_ne_colon g1 _)
  have hsplit : splitOnChar ':' (ipString (IPAddr.v6 g0 g1 g2 g3 g4 g5 g6 g7)) =
      [printNat 16 g0, printNat 16 g1, printNat 16 g2, printNat 16 g3,
       printNat 16 g4, printNat 16 g5, printNat 16 g6, printNat 16 g7] := by
    rw [hexp, splitOnChar_append _ (hcolP g0), splitOnChar_append _ (hcolP g1),
        splitOnChar_append _ (hcolP g2), splitOnChar_append _ (hcolP g3),
        splitOnChar_append _ (hcolP g4), splitOnChar_append _ (hcolP g5),
        splitOnChar_append _ (hcolP g6), splitOnChar_of_not_mem (hcolP g7)]
  unfold parseAddr
  rw [if_pos hmem]
  unfold parseV6
  rw [show splitTwoColon (ipString (IPAddr.v6 g0 g1 g2 g3 g4 g5 g6 g7)) = none from hexp ▸ s0]
  simp only [hsplit, List.mapM_cons, List.mapM_nil,
    hexGroupVal_printNat h0, hexGroupVal_printNat h1, hexGroupVal_printNat h2,
    hexGroupVal_printNat h3, hexGroupVal_printNat h4, hexGroupVal_printNat h5,
    hexGroupVal_printNat h6, hexGroupVal_printNat h7, Option.bind_some, Option.pure_def]
  rfl

theorem parseAddr_roundtrip {s : GoStr} {ip : IPAddr} (h : parseAddr s = some ip) :
    parseAddr (ipString ip) = some ip := by
  have hwf := parseAddr_wf h
  cases ip with
  | v4 a b c d => exact parseAddr_ipString_v4 hwf
  | v6 a b c d e f g hh => exact parseAddr_ipString_v6 hwf

/-!
Characterization lemmas for the batch loops and the delete matching phase.
-/

theorem findMatch_eq_find? (zone ty nm : GoStr) : ∀ l : List LibdnsRecord,
    findMatch zone ty nm l =
      l.find? (fun c => (rrOf c).rtype == ty && getRecordName zone (rrOf c).name == nm) := by
  intro l
  induction l with
  | nil => rfl
  | cons c rest ih =>
    rw [List.find?_cons]
    by_cases hcond : ((rrOf c).rtype == ty && getRecordName zone (rrOf c).name == nm) = true
    · simp only [findMatch, hcond, if_true]
    · rw [Bool.not_eq_true] at hcond
      simp only [findMatch, hcond, Bool.false_eq_true, if_false]
      exact ih

theorem deleteMatches_eq_filterMap (zone : GoStr) (current : List LibdnsRecord) :
    ∀ reqs : List LibdnsRecord,
      deleteMatches zone current reqs =
        reqs.filterMap (fun r =>
          findMatch zone (rrOf r).rtype (getRecordName zone (rrOf r).name) current) := by
  intro reqs
  induction reqs with
  | nil => rfl
  | cons r rest ih =>
    rw [List.filterMap_cons]
    unfold deleteMatches
    cases hm : findMatch zone (rrOf r).rtype (getRecordName zone (rrOf r).name) current with
    | none => simp only [hm]; exact ih
    | some c => simp only [hm]; rw [ih]

theorem deleteLoop_all_true (zone : GoStr) (dAll : List LibdnsRecord) :
    ∀ (l : List LibdnsRecord) (idx : Nat) (store : List godaddyRecord) (trace : List RemoteCall),
      deleteLoop (fun _ => true) zone dAll idx store trace l =
        ⟨trace ++ l.map (delCallOf zone),
         l.foldl (fun s r => applyDel s (rrOf r).rtype (getRecordName zone (rrOf r).name)) store,
         dAll, false⟩ := by
  intro l
  induction l with
  | nil => intro idx store trace; simp [deleteLoop]
  | cons r rest ih =>
    intro idx store trace
    unfold deleteLoop
    simp only [if_pos rfl]
    rw [ih]
    simp [delCallOf]

theorem appendLoop_stop (ok : Nat → Bool) (zone : GoStr) :
    ∀ (N : Nat) (records : List LibdnsRecord) (idx : Nat) (store : List godaddyRecord)
      (acc : List LibdnsRecord) (trace : List RemoteCall),
      (∀ i, i < N → ok (idx + i) = true) → ok (idx + N) = false → N < records.length →
      appendLoop ok zone idx store acc trace records =
        ⟨trace ++ (records.take (N + 1)).map (putCallOf zone),
         (records.take N).foldl (fun s r => applyPut s (convertFromLibdnsRecord r zone)) store,
         [], true⟩ := by
  intro N
  induction N with
  | zero =>
    intro records idx store acc trace _ h2 h3
    cases records with
    | nil => simp at h3
    | cons r rest =>
      unfold appendLoop
      rw [Nat.add_zero] at h2
      rw [h2]
      simp [putCallOf]
  | succ N ih =>
    intro records idx store acc trace h1 h2 h3
    cases records with
    | nil => simp at h3
    | cons r rest =>
      unfold appendLoop
      have h0 : ok idx = true := by
        have := h1 0 (Nat.succ_pos N)
        simpa using this
      rw [h0]
      simp only [if_pos rfl]
      rw [ih rest (idx + 1) _ _ _ (fun i hi => by
            have := h1 (i + 1) (Nat.succ_lt_succ hi)
            rwa [show idx + (i + 1) = idx + 1 + i by omega] at this)
          (by rwa [show idx + 1 + N = idx + (N + 1) by omega]) (by simpa using h3)]
      simp [putCallOf, List.take_succ_cons]

theorem appendLoop_trace_puts (ok : Nat → Bool) (zone : GoStr) :
    ∀ (records : List LibdnsRecord) (idx : Nat) (store : List godaddyRecord)
      (acc : List LibdnsRecord) (trace : List RemoteCall),
      trace.all RemoteCall.isPut = true →
      ((appendLoop ok zone idx store acc trace records).trace).all RemoteCall.isPut = true := by
  intro records
  induction records with
  | nil => intro idx store acc trace h; exact h
  | cons r rest ih =>
    intro idx store acc trace h
    unfold appendLoop
    by_cases hok : ok idx = true
    · rw [hok]
      simp only [if_pos rfl]
      refine ih _ _ _ _ ?_
      rw [List.all_append, h]
      rfl
    · rw [Bool.not_eq_true] at hok
      rw [hok]
      simp only [Bool.false_eq_true, if_neg, if_false]
      show ((trace ++ [_]).all RemoteCall.isPut) = true
      rw [List.all_append, h]
      rfl

theorem deleteLoop_stop (ok : Nat → Bool) (zone : GoStr) (dAll : List LibdnsRecord) :
    ∀ (N : Nat) (l : List LibdnsRecord) (idx : Nat) (store : List godaddyRecord)
      (trace : List RemoteCall),
      (∀ i, i < N → ok (idx + i) = true) → ok (idx + N) = false → N < l.length →
      deleteLoop ok zone dAll idx store trace l =
        ⟨trace ++ (l.take (N + 1)).map (delCallOf zone),
         (l.take N).foldl (fun s r => applyDel s (rrOf r).rtype (getRecordName zone (rrOf r).name)) store,
         [], true⟩ := by
  intro N
  induction N with
  | zero =>
    intro l idx store trace _ h2 h3
    cases l with
    | nil => simp at h3
    | cons r rest =>
      unfold deleteLoop
      rw [Nat.add_zero] at h2
      rw [h2]
      simp [delCallOf]
  | succ N ih =>
    intro l idx store trace h1 h2 h3
    cases l with
    | nil => simp at h3
    | cons r rest =>
      unfold deleteLoop
      have h0 : ok idx = true := by
        have := h1 0 (Nat.succ_pos N)
        simpa using this
      rw [h0]
      simp only [if_pos rfl]
      rw [ih rest (idx + 1) _ _ (fun i hi => by
            have := h1 (i + 1) (Nat.succ_lt_succ hi)
            rwa [show idx + (i + 1) = idx + 1 + i by omega] at this)
          (by rwa [show idx + 1 + N = idx + (N + 1) by omega]) (by simpa using h3)]
      simp [delCallOf, List.take_succ_cons]

/-!
Claim theorems.
-/

/-- C1: decoding a vendor record is total, and whenever the data cannot be
parsed into the typed variant for its declared type (invalid IP literal for
A and AAAA, malformed MX payload with no space or an unparseable
preference, or any unknown type such as SRV), the result is the Raw
fallback variant whose type, name, data and TTL equal the input's original
fields (the TTL converted to a duration at one second per unit, as every
decode path does). -/
theorem godaddy_C1 :
    (∀ gr : godaddyRecord,
        toUpperGo gr.type = gs "A" ∨ toUpperGo gr.type = gs "AAAA" →
        parseAddr gr.data = none →
        convertToLibdnsRecord gr = .rr gr.name (gr.ttl * 1000000000) gr.type gr.data)
  ∧ (∀ gr : godaddyRecord,
        toUpperGo gr.type = gs "MX" →
        splitOnceAt ' ' gr.data = none →
        convertToLibdnsRecord gr = .rr gr.name (gr.ttl * 1000000000) gr.type gr.data)
  ∧ (∀ (gr : godaddyRecord) (p1 p2 : GoStr),
        toUpperGo gr.type = gs "MX" →
        splitOnceAt ' ' gr.data = some (p1, p2) →
        parseUint16 p1 = none →
        convertToLibdnsRecord gr = .rr gr.name (gr.ttl * 1000000000) gr.type gr.data)
  ∧ (∀ gr : godaddyRecord,
        toUpperGo gr.type ≠ gs "A" → toUpperGo gr.type ≠ gs "AAAA" →
        toUpperGo gr.type ≠ gs "TXT" → toUpperGo gr.type ≠ gs "CNAME" →
        toUpperGo gr.type ≠ gs "MX" → toUpperGo gr.type ≠ gs "NS" →
        convertToLibdnsRecord gr = .rr gr.name (gr.ttl * 1000000000) gr.type gr.data) := by
  refine ⟨?_, ?_, ?_, ?_⟩
  · intro gr htype hparse
    simp only [convertToLibdnsRecord]
    rw [if_pos htype, hparse]
  · intro gr htype hsplit
    have hne1 : ¬ (toUpperGo gr.type = gs "A" ∨ toUpperGo gr.type = gs "AAAA") := by
      rw [htype]; decide
    have hne2 : toUpperGo gr.type ≠ gs "TXT" := by rw [htype]; decide
    have hne3 : toUpperGo gr.type ≠ gs "CNAME" := by rw [htype]; decide
    simp only [convertToLibdnsRecord, goSplitN2]
    rw [if_neg hne1, if_neg hne2, if_neg hne3, if_pos htype, hsplit]
  · intro gr p1 p2 htype hsplit hpref
    have hne1 : ¬ (toUpperGo gr.type = gs "A" ∨ toUpperGo gr.type = gs "AAAA") := by
      rw [htype]; decide
    have hne2 : toUpperGo gr.type ≠ gs "TXT" := by rw [htype]; decide
    have hne3 : toUpperGo gr.type ≠ gs "CNAME" := by rw [htype]; decide
    simp only [convertToLibdnsRecord, goSplitN2]
    rw [if_neg hne1, if_neg hne2, if_neg hne3, if_pos htype, hsplit]
    simp only [hpref]
  · intro gr h1 h2 h3 h4 h5 h6
    have hne1 : ¬ (toUpperGo gr.type = gs "A" ∨ toUpperGo gr.type = gs "AAAA") := by
      intro h
      rcases h with h | h
      · exact h1 h
      · exact h2 h
    simp only [convertToLibdnsRecord]
    rw [if_neg hne1, if_neg h3, if_neg h4, if_neg h5, if_neg h6]

/-- C1 witness: a vendor A record with unparseable data decodes to the Raw
fallback preserving its fields. -/
theorem godaddy_C1_witness :
    (toUpperGo (gs "A") = gs "A" ∨ toUpperGo (gs "A") = gs "AAAA")
    ∧ parseAddr (gs "invalid") = none
    ∧ convertToLibdnsRecord ⟨gs "A", gs "www", gs "invalid", 3600⟩ =
        .rr (gs "www") (3600 * 1000000000) (gs "A") (gs "invalid") :=
  ⟨Or.inl (by decide), by decide,
    godaddy_C1.1 ⟨gs "A", gs "www", gs "invalid", 3600⟩ (Or.inl (by decide)) (by decide)⟩

/-- C3: the encoded vendor TTL is the record's duration truncated to whole
seconds when that value is at least 600, and exactly 600 whenever the
truncated value is below 600, including zero and negative durations. -/
theorem godaddy_C3 : ∀ (record : LibdnsRecord) (zone : GoStr),
    (600 ≤ Int.tdiv (rrOf record).ttl 1000000000 →
      (convertFromLibdnsRecord record zone).ttl = Int.tdiv (rrOf record).ttl 1000000000)
  ∧ (Int.tdiv (rrOf record).ttl 1000000000 < 600 →
      (convertFromLibdnsRecord record zone).ttl = 600) := by
  intro record zone
  constructor
  · intro h
    simp only [convertFromLibdnsRecord]
    rw [if_neg (by omega)]
  · intro h
    simp only [convertFromLibdnsRecord]
    rw [if_pos h]

/-- C3 witness: a five-minute text record encodes with the floored TTL of
600 seconds. -/
theorem godaddy_C3_witness :
    Int.tdiv (rrOf (.txt (gs "x") 300000000000 (gs "tok"))).ttl 1000000000 < 600
    ∧ (convertFromLibdnsRecord (.txt (gs "x") 300000000000 (gs "tok")) (gs "example.com.")).ttl
        = 600 :=
  ⟨by decide,
    (godaddy_C3 (.txt (gs "x") 300000000000 (gs "tok")) (gs "example.com.")).2 (by decide)⟩

/-- C4: the name resolver returns the apex marker unchanged, and otherwise
strips one trailing occurrence of the zone and then one trailing dot; in
particular the two spec examples hold. -/
theorem godaddy_C4 :
    (∀ zone : GoStr, getRecordName zone (gs "@") = gs "@")
  ∧ (∀ zone q : GoStr, q ++ gs "." ++ zone ≠ gs "@" →
      getRecordName zone (q ++ gs "." ++ zone) = q)
  ∧ (∀ zone q : GoStr, ¬ (gs ".") <:+ q → q ++ zone ≠ gs "@" →
      getRecordName zone (q ++ zone) = q)
  ∧ getRecordName (gs "example.com.") (gs "www.example.com.") = gs "www"
  ∧ getRecordName (gs "example.com.") (gs "_acme-challenge.sub.example.com.")
      = gs "_acme-challenge.sub" := by
  refine ⟨?_, ?_, ?_, by decide, by decide⟩
  · intro zone
    unfold getRecordName
    rw [if_pos rfl]
  · intro zone q h
    unfold getRecordName
    rw [if_neg h, trimSuffix_append, trimSuffix_append]
  · intro zone q h1 h2
    unfold getRecordName
    rw [if_neg h2, trimSuffix_append, trimSuffix_of_not_suffix h1]

/-- C4 witness: resolving www.example.com. in zone example.com. strips the
zone and the trailing dot. -/
theorem godaddy_C4_witness :
    (gs "www" ++ gs "." ++ gs "example.com.") ≠ gs "@"
    ∧ getRecordName (gs "example.com.") (gs "www" ++ gs "." ++ gs "example.com.") = gs "www" :=
  ⟨by decide, godaddy_C4.2.1 (gs "example.com.") (gs "www") (by decide)⟩

/-- C5 counterexample: the name www.other.org. is not the apex and does not
end with the zone example.com., yet the resolver does not return it
unchanged: the trailing dot is stripped. -/
theorem godaddy_C5_cex :
    (gs "www.other.org." ≠ gs "@")
    ∧ ¬ (gs "example.com.") <:+ (gs "www.other.org.")
    ∧ getRecordName (gs "example.com.") (gs "www.other.org.") ≠ gs "www.other.org." := by
  exact ⟨by decide, by decide, by decide⟩

/-- C5 amended: for a name other than the apex marker that does not end
with the zone, the resolver returns the name with one trailing dot
stripped when present; a name with no trailing dot is returned completely
unchanged. -/
theorem godaddy_C5 :
    (∀ zone name : GoStr, name ≠ gs "@" → ¬ zone <:+ name → ¬ (gs ".") <:+ name →
        getRecordName zone name = name)
  ∧ (∀ zone q : GoStr, q ++ gs "." ≠ gs "@" → ¬ zone <:+ (q ++ gs ".") →
        getRecordName zone (q ++ gs ".") = q) := by
  constructor
  · intro zone name _ h2 h3
    exact getRecordName_unchanged h2 h3
  · intro zone q h1 h2
    unfold getRecordName
    rw [if_neg h1, trimSuffix_of_not_suffix h2, trimSuffix_append]

/-- C5 witness: a bare relative name is returned unchanged. -/
theorem godaddy_C5_witness :
    (gs "test" ≠ gs "@")
    ∧ ¬ (gs "example.com.") <:+ (gs "test")
    ∧ ¬ (gs ".") <:+ (gs "test")
    ∧ getRecordName (gs "example.com.") (gs "test") = gs "test" :=
  ⟨by decide, by decide, by decide,
    godaddy_C5.1 (gs "example.com.") (gs "test") (by decide) (by decide) (by decide)⟩

/-- C6 counterexample: the claim reads the MX split as splitting on the
first whitespace run, under which the tab-separated data below would
decode to a MailExchange with preference 10 and target mail.example.com;
the code splits only on a single space character, so this record decodes
to the Raw fallback instead. -/
theorem godaddy_C6_cex :
    convertToLibdnsRecord ⟨gs "MX", gs "@", gs "10\tmail.example.com", 3600⟩ =
      .rr (gs "@") (3600 * 1000000000) (gs "MX") (gs "10\tmail.example.com")
    ∧ convertToLibdnsRecord ⟨gs "MX", gs "@", gs "10\tmail.example.com", 3600⟩ ≠
      .mx (gs "@") (3600 * 1000000000) 10 (gs "mail.example.com") := by
  exact ⟨by decide, by decide⟩

/-- C6 amended: decoding an MX record splits the data at the first single
space character, the second token being the entire remainder (other
whitespace such as tabs does not split); if a space exists and the first
token parses as an unsigned 16-bit integer the result is a MailExchange
with that preference and the remainder as target, and otherwise the
result is the Raw fallback preserving the original type and data. -/
theorem godaddy_C6 :
    (∀ t1 t2 : GoStr, ' ' ∉ t1 → splitOnceAt ' ' (t1 ++ ' ' :: t2) = some (t1, t2))
  ∧ (∀ t : GoStr, ' ' ∉ t → splitOnceAt ' ' t = none)
  ∧ (∀ (gr : godaddyRecord) (p1 p2 : GoStr) (v : Nat),
        toUpperGo gr.type = gs "MX" →
        splitOnceAt ' ' gr.data = some (p1, p2) →
        parseUint16 p1 = some v →
        convertToLibdnsRecord gr = .mx gr.name (gr.ttl * 1000000000) v p2)
  ∧ (∀ (gr : godaddyRecord) (p1 p2 : GoStr),
        toUpperGo gr.type = gs "MX" →
        splitOnceAt ' ' gr.data = some (p1, p2) →
        parseUint16 p1 = none →
        convertToLibdnsRecord gr = .rr gr.name (gr.ttl * 1000000000) gr.type gr.data)
  ∧ (∀ gr : godaddyRecord,
        toUpperGo gr.type = gs "MX" →
        splitOnceAt ' ' gr.data = none →
        convertToLibdnsRecord gr = .rr gr.name (gr.ttl * 1000000000) gr.type gr.data) := by
  refine ⟨fun t1 t2 h => splitOnceAt_append t2 h, fun t h => splitOnceAt_of_not_mem h, ?_, ?_, ?_⟩
  · intro gr p1 p2 v htype hsplit hpref
    have hne1 : ¬ (toUpperGo gr.type = gs "A" ∨ toUpperGo gr.type = gs "AAAA") := by
      rw [htype]; decide
    have hne2 : toUpperGo gr.type ≠ gs "TXT" := by rw [htype]; decide
    have hne3 : toUpperGo gr.type ≠ gs "CNAME" := by rw [htype]; decide
    simp only [convertToLibdnsRecord, goSplitN2]
    rw [if_neg hne1, if_neg hne2, if_neg hne3, if_pos htype, hsplit]
    simp only [hpref]
  · intro gr p1 p2 htype hsplit hpref
    have hne1 : ¬ (toUpperGo gr.type = gs "A" ∨ toUpperGo gr.type = gs "AAAA") := by
      rw [htype]; decide
    have hne2 : toUpperGo gr.type ≠ gs "TXT" := by rw [htype]; decide
    have hne3 : toUpperGo gr.type ≠ gs "CNAME" := by rw [htype]; decide
    simp only [convertToLibdnsRecord, goSplitN2]
    rw [if_neg hne1, if_neg hne2, if_neg hne3, if_pos htype, hsplit]
    simp only [hpref]
  · intro gr htype hsplit
    have hne1 : ¬ (toUpperGo gr.type = gs "A" ∨ toUpperGo gr.type = gs "AAAA") := by
      rw [htype]; decide
    have hne2 : toUpperGo gr.type ≠ gs "TXT" := by rw [htype]; decide
    have hne3 : toUpperGo gr.type ≠ gs "CNAME" := by rw [htype]; decide
    simp only [convertToLibdnsRecord, goSplitN2]
    rw [if_neg hne1, if_neg hne2, if_neg hne3, if_pos htype, hsplit]

/-- C6 witness: the well-formed MX payload decodes to a MailExchange with
preference 10 and target mail.example.com. -/
theorem godaddy_C6_witness :
    toUpperGo (gs "MX") = gs "MX"
    ∧ splitOnceAt ' ' (gs "10 mail.example.com") = some (gs "10", gs "mail.example.com")
    ∧ parseUint16 (gs "10") = some 10
    ∧ convertToLibdnsRecord ⟨gs "MX", gs "@", gs "10 mail.example.com", 3600⟩ =
        .mx (gs "@") (3600 * 1000000000) 10 (gs "mail.example.com") :=
  ⟨by decide, by decide, by decide,
    godaddy_C6.2.2.1 ⟨gs "MX", gs "@", gs "10 mail.example.com", 3600⟩
      (gs "10") (gs "mail.example.com") 10 (by decide) (by decide) (by decide)⟩

/-- C7 counterexample: encoding a Raw record whose type tag is lowercase
txt produces a vendor record whose type is still txt, not the uppercased
TXT the claim requires. -/
theorem godaddy_C7_cex :
    (convertFromLibdnsRecord (.rr (gs "www") 0 (gs "txt") (gs "hello")) (gs "example.com.")).type
      = gs "txt"
    ∧ gs "txt" ≠ toUpperGo (gs "txt") := by
  exact ⟨by decide, by decide⟩

/-- C7 amended: the encoded vendor type is the RR-view type verbatim, with
no uppercasing applied by the encoder; for the typed variants the RR view
is already the canonical uppercase type string, while a Raw record's type
tag passes through unchanged; and decode dispatch treats the incoming
type case-insensitively, the only case-dependence of the result being the
type tag preserved verbatim in the Raw fallback. -/
theorem godaddy_C7 :
    (∀ (r : LibdnsRecord) (zone : GoStr),
        (convertFromLibdnsRecord r zone).type = (rrOf r).rtype)
  ∧ (∀ (n : GoStr) (t : Int) (ty d : GoStr) (zone : GoStr),
        (convertFromLibdnsRecord (.rr n t ty d) zone).type = ty)
  ∧ (∀ (r : LibdnsRecord) (zone : GoStr), isTypedVariant r = true →
        toUpperGo (convertFromLibdnsRecord r zone).type = (convertFromLibdnsRecord r zone).type)
  ∧ (∀ (gr : godaddyRecord) (ty : GoStr), toUpperGo ty = toUpperGo gr.type →
        convertToLibdnsRecord ⟨ty, gr.name, gr.data, gr.ttl⟩ =
          rawRetype ty (convertToLibdnsRecord gr)) := by
  refine ⟨?_, ?_, ?_, ?_⟩
  · intro r zone; rfl
  · intro n t ty d zone; rfl
  · intro r zone htyped
    cases r with
    | address n t ip =>
      cases ip with
      | v4 a b c d =>
        show toUpperGo (gs "A") = gs "A"
        decide
      | v6 a b c d e f g h =>
        show toUpperGo (gs "AAAA") = gs "AAAA"
        decide
    | txt n t s =>
      show toUpperGo (gs "TXT") = gs "TXT"
      decide
    | cname n t tg =>
      show toUpperGo (gs "CNAME") = gs "CNAME"
      decide
    | mx n t p tg =>
      show toUpperGo (gs "MX") = gs "MX"
      decide
    | ns n t tg =>
      show toUpperGo (gs "NS") = gs "NS"
      decide
    | rr n t ty d => simp [isTypedVariant] at htyped
  · intro gr ty h
    simp only [convertToLibdnsRecord]
    rw [h]
    by_cases h1 : toUpperGo gr.type = gs "A" ∨ toUpperGo gr.type = gs "AAAA"
    · rw [if_pos h1, if_pos h1]
      cases hp : parseAddr gr.data with
      | none => simp [rawRetype]
      | some ip => simp [rawRetype]
    · rw [if_neg h1, if_neg h1]
      by_cases h2 : toUpperGo gr.type = gs "TXT"
      · rw [if_pos h2, if_pos h2]; rfl
      · rw [if_neg h2, if_neg h2]
        by_cases h3 : toUpperGo gr.type = gs "CNAME"
        · rw [if_pos h3, if_pos h3]; rfl
        · rw [if_neg h3, if_neg h3]
          by_cases h4 : toUpperGo gr.type = gs "MX"
          · rw [if_pos h4, if_pos h4]
            cases hsp : goSplitN2 gr.data ' ' with
            | nil => simp [rawRetype]
            | cons a as =>
              cases as with
              | nil => simp [rawRetype]
              | cons b bs =>
                cases bs with
                | nil =>
                  cases hpref : parseUint16 a with
                  | none => simp [hpref, rawRetype]
                  | some v => simp [hpref, rawRetype]
                | cons c cs => simp [rawRetype]
          · rw [if_neg h4, if_neg h4]
            by_cases h5 : toUpperGo gr.type = gs "NS"
            · rw [if_pos h5, if_pos h5]; rfl
            · rw [if_neg h5, if_neg h5]; rfl

/-- C7 witness: a typed Text record already carries the canonical uppercase
type after encoding. -/
theorem godaddy_C7_witness :
    isTypedVariant (.txt (gs "n") 0 (gs "v")) = true
    ∧ toUpperGo (convertFromLibdnsRecord (.txt (gs "n") 0 (gs "v")) (gs "z")).type
        = (convertFromLibdnsRecord (.txt (gs "n") 0 (gs "v")) (gs "z")).type :=
  ⟨rfl, godaddy_C7.2.2.1 (.txt (gs "n") 0 (gs "v")) (gs "z") rfl⟩

/-- C2: over the remote interaction model with every call succeeding, the
deleted set returned by DeleteRecords is exactly one first-match lookup per
caller-supplied request, keyed purely on the pair of RR-view type and
zone-relative name (data and TTL do not appear in the key), with
requests that match nothing simply omitted; and no error is returned. -/
theorem godaddy_C2 : ∀ (zone : GoStr) (records : List LibdnsRecord)
    (store : List godaddyRecord),
    (deleteRecordsModel (fun _ => true) zone records store).records =
      records.filterMap (fun r =>
        (store.map convertToLibdnsRecord).find? (fun c =>
          (rrOf c).rtype == (rrOf r).rtype &&
          getRecordName zone (rrOf c).name == getRecordName zone (rrOf r).name))
    ∧ (deleteRecordsModel (fun _ => true) zone records store).err = false := by
  intro zone records store
  unfold deleteRecordsModel
  rw [if_pos (show ((fun _ : Nat => true) 0) = true from rfl), deleteLoop_all_true]
  constructor
  · show deleteMatches zone (store.map convertToLibdnsRecord) records = _
    rw [deleteMatches_eq_filterMap]
    simp only [findMatch_eq_find?]
  · rfl

/-- C8 counterexample: an A record whose name carries a trailing dot and a
zone the name does not end with: the decode, encode, decode chain changes
the RR-view name from www. to www, because the encoder strips one
trailing dot, so the composition is not lossless on the name field as the
claim states. -/
theorem godaddy_C8_cex :
    (toUpperGo (gs "A") = gs "A" ∨ toUpperGo (gs "A") = gs "AAAA")
    ∧ (parseAddr (gs "1.2.3.4")).isSome = true
    ∧ ¬ (gs "zz") <:+ (gs "www.")
    ∧ (rrOf (convertToLibdnsRecord (convertFromLibdnsRecord
         (convertToLibdnsRecord ⟨gs "A", gs "www.", gs "1.2.3.4", 3600⟩) (gs "zz")))).name
      ≠ (rrOf (convertToLibdnsRecord ⟨gs "A", gs "www.", gs "1.2.3.4", 3600⟩)).name := by
  exact ⟨Or.inl (by decide), by decide, by decide, by decide⟩

/-- C8 amended: for an A or AAAA vendor record whose data parses as an IP
literal, with a zone its name does not end with and, additionally, a name
with no trailing dot, the decode, encode, decode composition preserves the
RR-view type, name and data, and the TTL is preserved except for the
600-second floor applied on the encode step. -/
theorem godaddy_C8 : ∀ (gr : godaddyRecord) (zone : GoStr) (ip : IPAddr),
    (toUpperGo gr.type = gs "A" ∨ toUpperGo gr.type = gs "AAAA") →
    parseAddr gr.data = some ip →
    ¬ zone <:+ gr.name →
    ¬ (gs ".") <:+ gr.name →
    (rrOf (convertToLibdnsRecord (convertFromLibdnsRecord (convertToLibdnsRecord gr) zone))).rtype
        = (rrOf (convertToLibdnsRecord gr)).rtype
    ∧ (rrOf (convertToLibdnsRecord (convertFromLibdnsRecord (convertToLibdnsRecord gr) zone))).name
        = (rrOf (convertToLibdnsRecord gr)).name
    ∧ (rrOf (convertToLibdnsRecord (convertFromLibdnsRecord (convertToLibdnsRecord gr) zone))).rdata
        = (rrOf (convertToLibdnsRecord gr)).rdata
    ∧ (rrOf (convertToLibdnsRecord (convertFromLibdnsRecord (convertToLibdnsRecord gr) zone))).ttl
        = (if (rrOf (convertToLibdnsRecord gr)).ttl < 600 * 1000000000
           then 600 * 1000000000 else (rrOf (convertToLibdnsRecord gr)).ttl) := by
  intro gr zone ip htype hparse hz hd
  have hd1 : convertToLibdnsRecord gr = .address gr.name (gr.ttl * 1000000000) ip := by
    simp only [convertToLibdnsRecord]
    rw [if_pos htype, hparse]
  rw [hd1]
  have hname : getRecordName zone gr.name = gr.name := getRecordName_unchanged hz hd
  have henc : convertFromLibdnsRecord (.address gr.name (gr.ttl * 1000000000) ip) zone =
      ⟨if ip.is4 then gs "A" else gs "AAAA", gr.name, ipString ip,
       if gr.ttl < 600 then 600 else gr.ttl⟩ := by
    simp only [convertFromLibdnsRecord, rrOf]
    rw [hname, Int.mul_tdiv_cancel _ (by norm_num)]
  rw [henc]
  have hrt : parseAddr (ipString ip) = some ip := parseAddr_roundtrip hparse
  have hty2 : toUpperGo (if ip.is4 then gs "A" else gs "AAAA") = gs "A" ∨
      toUpperGo (if ip.is4 then gs "A" else gs "AAAA") = gs "AAAA" := by
    by_cases h4 : ip.is4 = true
    · rw [h4]
      exact Or.inl (by decide)
    · rw [Bool.not_eq_true] at h4
      rw [h4]
      exact Or.inr (by decide)
  have hd3 : convertToLibdnsRecord
      ⟨if ip.is4 then gs "A" else gs "AAAA", gr.name, ipString ip,
       if gr.ttl < 600 then 600 else gr.ttl⟩ =
      .address gr.name ((if gr.ttl < 600 then 600 else gr.ttl) * 1000000000) ip := by
    simp only [convertToLibdnsRecord]
    rw [if_pos hty2, hrt]
  rw [hd3]
  refine ⟨rfl, rfl, rfl, ?_⟩
  show (if gr.ttl < 600 then 600 else gr.ttl) * 1000000000 =
    if gr.ttl * 1000000000 < 600 * 1000000000 then 600 * 1000000000 else gr.ttl * 1000000000
  by_cases httl : gr.ttl < 600
  · rw [if_pos httl, if_pos (by omega)]
  · rw [if_neg httl, if_neg (by omega)]

/-- C8 witness: a valid A record in a foreign zone survives the decode,
encode, decode composition on type, name and data, with the TTL floored. -/
theorem godaddy_C8_witness :
    (toUpperGo (gs "A") = gs "A" ∨ toUpperGo (gs "A") = gs "AAAA")
    ∧ parseAddr (gs "192.168.1.1") = some (.v4 192 168 1 1)
    ∧ ¬ (gs "example.com.") <:+ (gs "www")
    ∧ ¬ (gs ".") <:+ (gs "www")
    ∧ ((rrOf (convertToLibdnsRecord (convertFromLibdnsRecord
          (convertToLibdnsRecord ⟨gs "A", gs "www", gs "192.168.1.1", 300⟩) (gs "example.com.")))).rtype
        = (rrOf (convertToLibdnsRecord ⟨gs "A", gs "www", gs "192.168.1.1", 300⟩)).rtype
      ∧ (rrOf (convertToLibdnsRecord (convertFromLibdnsRecord
          (convertToLibdnsRecord ⟨gs "A", gs "www", gs "192.168.1.1", 300⟩) (gs "example.com.")))).name
        = (rrOf (convertToLibdnsRecord ⟨gs "A", gs "www", gs "192.168.1.1", 300⟩)).name
      ∧ (rrOf (convertToLibdnsRecord (convertFromLibdnsRecord
          (convertToLibdnsRecord ⟨gs "A", gs "www", gs "192.168.1.1", 300⟩) (gs "example.com.")))).rdata
        = (rrOf (convertToLibdnsRecord ⟨gs "A", gs "www", gs "192.168.1.1", 300⟩)).rdata
      ∧ (rrOf (convertToLibdnsRecord (convertFromLibdnsRecord
          (convertToLibdnsRecord ⟨gs "A", gs "www", gs "192.168.1.1", 300⟩) (gs "example.com.")))).ttl
        = (if (rrOf (convertToLibdnsRecord ⟨gs "A", gs "www", gs "192.168.1.1", 300⟩)).ttl
              < 600 * 1000000000
           then 600 * 1000000000
           else (rrOf (convertToLibdnsRecord ⟨gs "A", gs "www", gs "192.168.1.1", 300⟩)).ttl)) :=
  ⟨Or.inl (by decide), by decide, by decide, by decide,
    godaddy_C8 ⟨gs "A", gs "www", gs "192.168.1.1", 300⟩ (gs "example.com.") (.v4 192 168 1 1)
      (Or.inl (by decide)) (by decide) (by decide) (by decide)⟩

/-- C9 counterexample: in a two-record append batch whose second call
fails, the first record's effect is applied to the remote store, but the
returned record list is empty rather than reporting the one record
successfully processed as the claim states. -/
theorem godaddy_C9_cex :
    (appendRecordsModel (fun i => i == 0) (gs "example.com.")
        [.txt (gs "a") 600000000000 (gs "x"), .txt (gs "b") 600000000000 (gs "y")] []).err = true
    ∧ (appendRecordsModel (fun i => i == 0) (gs "example.com.")
        [.txt (gs "a") 600000000000 (gs "x"), .txt (gs "b") 600000000000 (gs "y")] []).store
      = [convertFromLibdnsRecord (.txt (gs "a") 600000000000 (gs "x")) (gs "example.com.")]
    ∧ (appendRecordsModel (fun i => i == 0) (gs "example.com.")
        [.txt (gs "a") 600000000000 (gs "x"), .txt (gs "b") 600000000000 (gs "y")] []).records
      = []
    ∧ ([] : List LibdnsRecord) ≠ [.txt (gs "a") 600000000000 (gs "x")] := by
  exact ⟨by decide, by decide, by decide, by decide⟩

/-- C9 amended: when the call for the record at position N of a batch
fails (every earlier call succeeding), the append, set and delete
operations issue no further remote calls, return the error, and leave
exactly the first N records' effects applied on the remote store; the
returned record list is empty (nil) — the successfully processed records
are not reported.  For delete, the per-record calls follow the one read of
the zone, and the positions range over the matched records. -/
theorem godaddy_C9 :
    (∀ (ok : Nat → Bool) (zone : GoStr) (records : List LibdnsRecord)
        (store : List godaddyRecord) (N : Nat),
      (∀ i, i < N → ok i = true) → ok N = false → N < records.length →
      appendRecordsModel ok zone records store =
        ⟨(records.take (N + 1)).map (putCallOf zone),
         (records.take N).foldl (fun s r => applyPut s (convertFromLibdnsRecord r zone)) store,
         [], true⟩)
  ∧ (∀ (ok : Nat → Bool) (zone : GoStr) (records : List LibdnsRecord)
        (store : List godaddyRecord) (N : Nat),
      (∀ i, i < N → ok i = true) → ok N = false → N < records.length →
      setRecordsModel ok zone records store =
        ⟨(records.take (N + 1)).map (putCallOf zone),
         (records.take N).foldl (fun s r => applyPut s (convertFromLibdnsRecord r zone)) store,
         [], true⟩)
  ∧ (∀ (ok : Nat → Bool) (zone : GoStr) (records : List LibdnsRecord)
        (store : List godaddyRecord) (N : Nat),
      ok 0 = true → (∀ i, i < N → ok (1 + i) = true) → ok (1 + N) = false →
      N < (deleteMatches zone (store.map convertToLibdnsRecord) records).length →
      deleteRecordsModel ok zone records store =
        ⟨RemoteCall.get (getDomain zone) ::
           ((deleteMatches zone (store.map convertToLibdnsRecord) records).take (N + 1)).map
             (delCallOf zone),
         ((deleteMatches zone (store.map convertToLibdnsRecord) records).take N).foldl
           (fun s r => applyDel s (rrOf r).rtype (getRecordName zone (rrOf r).name)) store,
         [], true⟩) := by
  have hA : ∀ (ok : Nat → Bool) (zone : GoStr) (records : List LibdnsRecord)
      (store : List godaddyRecord) (N : Nat),
      (∀ i, i < N → ok i = true) → ok N = false → N < records.length →
      appendRecordsModel ok zone records store =
        ⟨(records.take (N + 1)).map (putCallOf zone),
         (records.take N).foldl (fun s r => applyPut s (convertFromLibdnsRecord r zone)) store,
         [], true⟩ := by
    intro ok zone records store N h1 h2 h3
    unfold appendRecordsModel
    rw [appendLoop_stop ok zone N records 0 store [] []
        (fun i hi => by rw [Nat.zero_add]; exact h1 i hi)
        (by rw [Nat.zero_add]; exact h2) h3]
    rw [List.nil_append]
  refine ⟨hA, hA, ?_⟩
  intro ok zone records store N h0 h1 h2 h3
  unfold deleteRecordsModel
  rw [if_pos h0]
  rw [deleteLoop_stop ok zone _ N _ 1 store [RemoteCall.get (getDomain zone)]
      (fun i hi => h1 i hi) h2 h3]
  rw [List.singleton_append]

/-- C9 witness: the amended characterization evaluated on a concrete
two-record append batch whose second call fails. -/
theorem godaddy_C9_witness :
    (∀ i, i < 1 → (fun j => j == 0) i = true)
    ∧ ((fun j : Nat => j == 0) 1 = false)
    ∧ (1 < ([LibdnsRecord.txt (gs "a") 600000000000 (gs "x"),
             LibdnsRecord.txt (gs "b") 600000000000 (gs "y")].length))
    ∧ appendRecordsModel (fun j => j == 0) (gs "example.com.")
        [.txt (gs "a") 600000000000 (gs "x"), .txt (gs "b") 600000000000 (gs "y")] [] =
        ⟨([LibdnsRecord.txt (gs "a") 600000000000 (gs "x"),
           LibdnsRecord.txt (gs "b") 600000000000 (gs "y")].take 2).map
             (putCallOf (gs "example.com.")),
         ([LibdnsRecord.txt (gs "a") 600000000000 (gs "x"),
           LibdnsRecord.txt (gs "b") 600000000000 (gs "y")].take 1).foldl
             (fun s r => applyPut s (convertFromLibdnsRecord r (gs "example.com."))) [],
         [], true⟩ :=
  ⟨by decide, by decide, by decide,
    godaddy_C9.1 (fun j => j == 0) (gs "example.com.")
      [.txt (gs "a") 600000000000 (gs "x"), .txt (gs "b") 600000000000 (gs "y")] [] 1
      (by decide) (by decide) (by decide)⟩

/-- C10: SetRecords is extensionally the same operation as AppendRecords:
on every environment, zone, record list and store it produces the
identical trace, store, records and error; and its trace consists only of
create-or-replace write calls — no read-back, no diffing, no deletes. -/
theorem godaddy_C10 : ∀ (ok : Nat → Bool) (zone : GoStr) (records : List LibdnsRecord)
    (store : List godaddyRecord),
    setRecordsModel ok zone records store = appendRecordsModel ok zone records store
    ∧ ((setRecordsModel ok zone records store).trace).all RemoteCall.isPut = true := by
  intro ok zone records store
  exact ⟨rfl, appendLoop_trace_puts ok zone records 0 store [] [] rfl⟩
